import Mathlib

/- Verification development for the StarryPy proxy server.
   Shallow embedding of: utility_functions.py, plugin_manager.py,
   core_plugins/command_plugin.py, core_plugins/player_manager/manager.py,
   plugins/planet_protect/planet_protect_plugin.py. -/

set_option linter.unusedVariables false

namespace StarryPy

/-- Association-list lookup, modelling Python dict lookup `d[k]` / `k in d`
    (dict keys are unique; first match). -/
def assocLookup {α : Type} : List (String × α) → String → Option α
  | [], _ => none
  | (k, v) :: rest, key => if k = key then some v else assocLookup rest key

/- ------------------------------------------------------------------ -/
/- UserLevels enumeration, core_plugins/player_manager/manager.py     -/
/- ------------------------------------------------------------------ -/

namespace UserLevels

def GUEST : Int := 0

def REGISTERED : Int := 1

def MODERATOR : Int := 10

def ADMIN : Int := 100

def OWNER : Int := 1000

end UserLevels

/- ------------------------------------------------------------------ -/
/- utility_functions.give_item_to_player                              -/
/- ------------------------------------------------------------------ -/

/-- The sequence of item-count fields of the GIVE_ITEM frames written by
    `give_item_to_player` for a requested count.  Source loop:
    `while item_count > 0: x = item_count; if x > maximum: x = maximum;`
    send a frame carrying `x + 1`; `item_count -= x` (maximum = 1000). -/
def give_item_frames (item_count : Int) : List Int :=
  if h : item_count > 0 then
    (let x := if item_count > 1000 then (1000 : Int) else item_count
     (x + 1) :: give_item_frames (item_count - x))
  else []
termination_by item_count.toNat
decreasing_by
  simp only [gt_iff_lt] at h
  split <;> omega

/- ------------------------------------------------------------------ -/
/- utility_functions.extract_name                                     -/
/- ------------------------------------------------------------------ -/

/-- Result of `extract_name`: a normal return carries the name and either
    the remaining-token list (`some rest`, Python `l[idx+2:]` or `l[1:]`)
    or the no-remainder sentinel (`none`, Python `None`). -/
inductive ExtractResult where
  | ok (name : String) (rest : Option (List String))
  | valueError
  | indexError
deriving DecidableEq

/-- The two quote characters recognised by `extract_name` (`["'", '"']`). -/
def quoteChars : List Char := ['\x27', '"']

/-- The last character of a token, Python `s[-1]` (`none` when `s` is
    empty, where Python would raise IndexError). -/
def lastChar : List Char → Option Char
  | [] => none
  | [c] => some c
  | _ :: c :: rest => lastChar (c :: rest)

/-- The scan `for idx, s in enumerate(l[1:])` of `extract_name`:
    accumulate tokens into `acc` until one ends with the terminator
    (its last character is dropped and the space-joined name returned,
    together with the tokens after it, or the `None` sentinel when the
    name consumed the whole list); an exhausted list raises ValueError. -/
def extractScan (terminator : Char) (acc : List String) : List String → ExtractResult
  | [] => .valueError
  | s :: rest =>
    match lastChar s.data with
    | none => .indexError
    | some lastc =>
      if lastc = terminator then
        (if rest.isEmpty then
          .ok (String.intercalate " " (acc ++ [String.mk s.data.dropLast])) none
        else
          .ok (String.intercalate " " (acc ++ [String.mk s.data.dropLast])) (some rest))
      else extractScan terminator (acc ++ [s]) rest

/-- `utility_functions.extract_name`: if the first token does not begin
    with a quote character, return it and the remaining tokens; otherwise
    strip the opening quote and scan subsequent tokens for one ending in
    the matching quote.  Indexing an empty list or empty token raises. -/
def extract_name (l : List String) : ExtractResult :=
  match l with
  | [] => .indexError
  | tok :: rest =>
    match tok.data with
    | [] => .indexError
    | c :: cs =>
      if c ∉ quoteChars then .ok tok (some rest)
      else extractScan c [String.mk cs] rest

/- ------------------------------------------------------------------ -/
/- plugin_manager.PluginManager.do                                    -/
/- ------------------------------------------------------------------ -/

/-- Observable behaviour of one plugin hook invocation inside
    `PluginManager.do`: it may raise, return the `False` object, return
    `None`, or return any other value (recorded by its truthiness). -/
inductive HookRes where
  | raised
  | retFalse
  | retNone
  | retOther (truthy : Bool)
deriving DecidableEq

/-- The `for plugin, packet_method in packets:` loop of `PluginManager.do`
    with its accumulated `return_values`: a raised error is logged and the
    loop continues; a `False` result returns immediately; `None` is
    replaced by `True` before being appended; the loop ends with
    `all(return_values)`. -/
def doLoop : List HookRes → List Bool → Bool
  | [], acc => acc.all id
  | h :: t, acc =>
    match h with
    | .raised => doLoop t acc
    | .retFalse => false
    | .retNone => doLoop t (acc ++ [true])
    | .retOther b => doLoop t (acc ++ [b])

/-- `PluginManager.do(protocol, when, data)`: `if protocol is None: return
    True`, then run the registered hooks for this packet/timing. -/
def pluginDo (protocol : Option Unit) (hooks : List HookRes) : Bool :=
  match protocol with
  | none => true
  | some _ => doLoop hooks []

/- ------------------------------------------------------------------ -/
/- player_manager.permissions decorator                               -/
/- ------------------------------------------------------------------ -/

/-- A Python return value that is either a real value or the `False`
    object (used by guards to signal "did not execute"). -/
inductive PyRet (α : Type) where
  | val (a : α)
  | pyFalse
deriving DecidableEq

/-- The wrapped handler produced by the `permissions` decorator: the
    required level stored as the `level` attribute on the function, and
    the call behaviour, taking the acting player's access level and
    returning the result together with the chat messages sent. -/
structure WrappedHandler (α : Type) where
  level : Int
  call : Int → PyRet α × List String

/-- `player_manager.permissions(level)` applied to a handler body `func`
    (modelled as acting-level → result × chat messages it sends): if
    `self.protocol.player.access_level >= level` run the body, else send
    "You are not an admin." and return `False`. -/
def permissions {α : Type} (level : Int) (func : Int → α × List String) : WrappedHandler α :=
  { level := level
    call := fun actorLevel =>
      if actorLevel ≥ level then
        (PyRet.val (func actorLevel).1, (func actorLevel).2)
      else (PyRet.pyFalse, ["You are not an admin."]) }

/- ------------------------------------------------------------------ -/
/- core_plugins/command_plugin.CommandDispatchPlugin.on_chat_sent     -/
/- ------------------------------------------------------------------ -/

/-- Outcome of `on_chat_sent`: returned `False`, fell off the end
    (returned `None`), or let an exception escape (IndexError raised
    before the `try` block). -/
inductive ChatOutcome where
  | retFalse
  | retNone
  | uncaught
deriving DecidableEq

/-- Python `str.isspace` characters relevant here (split on runs of
    whitespace, discarding empty fields, as `str.split()` does). -/
def isSpaceChar (c : Char) : Bool := c = ' ' || c = '\t' || c = '\n' || c = '\r'

/-- Helper for `pySplit`: `word` holds the current field reversed. -/
def splitAux (word : List Char) : List Char → List String
  | [] => if word.isEmpty then [] else [String.mk word.reverse]
  | c :: rest =>
    if isSpaceChar c then
      (if word.isEmpty then splitAux [] rest
       else String.mk word.reverse :: splitAux [] rest)
    else splitAux (c :: word) rest

/-- Python `str.split()` with no argument: split on whitespace runs,
    never producing empty fields. -/
def pySplit (s : List Char) : List String := splitAux [] s

/-- `CommandDispatchPlugin.on_chat_sent`, for an already-decoded chat
    message.  `commands` maps each registered command name to whether its
    handler raises when invoked (the behaviour `do` can observe).  Returns
    the outcome and the chat messages sent by this method itself.
    Source: if the message's first character is the command prefix, split
    the remainder; inside `try`, a registered command's handler is
    invoked (an exception is caught by `except Exception` after the
    `return False` is skipped, so the method returns `None`), an
    unregistered command gets the "Couldn't find" reply; both normal
    paths `return False`.  A message not starting with the prefix falls
    through, returning `None`. -/
def on_chat_sent (prefixChar : Char) (commands : List (String × Bool)) (message : String) :
    ChatOutcome × List String :=
  match message.data with
  | [] => (.uncaught, [])
  | c :: restChars =>
    if c = prefixChar then
      match pySplit restChars with
      | [] => (.uncaught, [])
      | command :: _args =>
        match assocLookup commands command with
        | some raises =>
            if raises then (.retNone, []) else (.retFalse, [])
        | none =>
            (.retFalse,
              ["Couldn\x27t find a command called " ++ String.mk [prefixChar] ++ command])
    else (.retNone, [])

/- ------------------------------------------------------------------ -/
/- Helper lemmas                                                      -/
/- ------------------------------------------------------------------ -/

theorem give_item_frames_pos (n : Int) (h : 0 < n) :
    give_item_frames n =
      ((if n > 1000 then (1000 : Int) else n) + 1) ::
        give_item_frames (n - (if n > 1000 then (1000 : Int) else n)) := by
  rw [give_item_frames]
  rw [dif_pos h]

theorem give_item_frames_nonpos (n : Int) (h : ¬ n > 0) : give_item_frames n = [] := by
  rw [give_item_frames]
  rw [dif_neg h]

theorem give_item_frames_split (k : Nat) (r : Int) (h1 : 0 < r) (h2 : r ≤ 1000) :
    give_item_frames (1000 * (k : Int) + r) = List.replicate k 1001 ++ [r + 1] := by
  induction k with
  | zero =>
    simp only [Nat.cast_zero, mul_zero, zero_add, List.replicate, List.nil_append]
    rw [give_item_frames_pos r h1, if_neg (by omega)]
    rw [show r - r = 0 by omega, give_item_frames_nonpos 0 (by omega)]
  | succ m ih =>
    have hgt : 1000 * ((m + 1 : Nat) : Int) + r > 1000 := by
      push_cast
      omega
    rw [give_item_frames_pos _ (by omega), if_pos hgt]
    have harg : 1000 * ((m + 1 : Nat) : Int) + r - 1000 = 1000 * (m : Int) + r := by
      push_cast
      ring
    rw [harg, ih]
    simp [List.replicate]

theorem doLoop_retFalse (pre rest : List HookRes) :
    ∀ acc, doLoop (pre ++ HookRes.retFalse :: rest) acc = false := by
  induction pre with
  | nil => intro acc; rfl
  | cons h t ih =>
    intro acc
    cases h <;> simp only [List.cons_append, doLoop] <;> exact ih _

theorem doLoop_all_good (hooks : List HookRes)
    (hg : ∀ h ∈ hooks, h = HookRes.retNone ∨ h = HookRes.retOther true ∨ h = HookRes.raised) :
    ∀ acc, acc.all id = true → doLoop hooks acc = true := by
  induction hooks with
  | nil => intro acc hacc; simpa [doLoop] using hacc
  | cons h t ih =>
    intro acc hacc
    have hh := hg h (List.mem_cons_self h t)
    have ht : ∀ x ∈ t, x = HookRes.retNone ∨ x = HookRes.retOther true ∨ x = HookRes.raised :=
      fun x hx => hg x (List.mem_cons_of_mem h hx)
    rcases hh with h1 | h1 | h1 <;> subst h1 <;> simp only [doLoop]
    · exact ih ht (acc ++ [true]) (by simp [List.all_append, hacc])
    · exact ih ht (acc ++ [true]) (by simp [List.all_append, hacc])
    · exact ih ht acc hacc

/- ------------------------------------------------------------------ -/
/- C1: PluginManager.do dispatch semantics                            -/
/- ------------------------------------------------------------------ -/

/-- C1: for every packet dispatch via `PluginManager.do`: a hook returning
    the explicit `False` result makes `do` return `False` immediately,
    regardless of the remaining hooks; when every invoked hook returns a
    truthy value or `None` (hooks that raise are logged and skipped), `do`
    returns `True`; a raised error does not prevent the remaining hooks
    from being processed; and when the protocol is `None`, `do` returns
    `True` without consulting any hook. -/
theorem c1_plugin_do_dispatch :
    (∀ hooks, pluginDo none hooks = true) ∧
    (∀ pre rest, pluginDo (some ()) (pre ++ HookRes.retFalse :: rest) = false) ∧
    (∀ hooks,
      (∀ h ∈ hooks, h = HookRes.retNone ∨ h = HookRes.retOther true ∨ h = HookRes.raised) →
      pluginDo (some ()) hooks = true) ∧
    (∀ t acc, doLoop (HookRes.raised :: t) acc = doLoop t acc) := by
  refine ⟨fun hooks => rfl, fun pre rest => doLoop_retFalse pre rest [], ?_, fun t acc => rfl⟩
  intro hooks hg
  exact doLoop_all_good hooks hg [] rfl

/-- Witness for C1 at concrete hook lists. -/
theorem c1_plugin_do_dispatch_witness :
    pluginDo (some ()) [HookRes.retNone, HookRes.raised, HookRes.retOther true] = true ∧
    pluginDo (some ()) ([HookRes.retNone] ++ HookRes.retFalse :: [HookRes.retNone]) = false ∧
    pluginDo none [HookRes.retFalse] = true :=
  ⟨c1_plugin_do_dispatch.2.2.1 _ (by decide),
   c1_plugin_do_dispatch.2.1 [HookRes.retNone] [HookRes.retNone],
   c1_plugin_do_dispatch.1 [HookRes.retFalse]⟩

/- ------------------------------------------------------------------ -/
/- C5: permissions decorator                                          -/
/- ------------------------------------------------------------------ -/

/-- C5: a handler wrapped by `permissions(level)`, invoked with an actor
    below the required level, returns `False`, sends exactly the one chat
    message "You are not an admin.", and does not execute the wrapped body
    (the outcome is identical for every body `func'`); an actor at or
    above the level gets the body's result and the body's own side
    effects; and the required level is stored on the wrapped handler. -/
theorem c5_permissions_gate {α : Type} (level : Int) (func func' : Int → α × List String)
    (actorLevel : Int) :
    ((permissions level func).level = level) ∧
    (actorLevel < level →
      (permissions level func).call actorLevel = (PyRet.pyFalse, ["You are not an admin."]) ∧
      (permissions level func).call actorLevel = (permissions level func').call actorLevel) ∧
    (level ≤ actorLevel →
      (permissions level func).call actorLevel =
        (PyRet.val (func actorLevel).1, (func actorLevel).2)) := by
  refine ⟨rfl, ?_, ?_⟩
  · intro hlt
    constructor
    · simp only [permissions, if_neg (by omega : ¬ actorLevel ≥ level)]
    · simp only [permissions, if_neg (by omega : ¬ actorLevel ≥ level)]
  · intro hge
    simp only [permissions, if_pos (by omega : actorLevel ≥ level)]

/-- Witness for C5: an ADMIN-gated command invoked by a REGISTERED actor
    is refused with the single chat message; invoked by an ADMIN actor it
    runs the body. -/
theorem c5_permissions_gate_witness :
    (permissions UserLevels.ADMIN (fun _ => ((37 : Nat), ["body ran"]))).call
      UserLevels.REGISTERED = (PyRet.pyFalse, ["You are not an admin."]) ∧
    (permissions UserLevels.ADMIN (fun _ => ((37 : Nat), ["body ran"]))).call
      UserLevels.ADMIN = (PyRet.val 37, ["body ran"]) ∧
    (permissions UserLevels.ADMIN (fun _ => ((37 : Nat), ["body ran"]))).level =
      UserLevels.ADMIN := by
  refine ⟨((c5_permissions_gate UserLevels.ADMIN _ (fun _ => ((37 : Nat), ["body ran"]))
      UserLevels.REGISTERED).2.1 (by decide)).1, ?_,
    (c5_permissions_gate UserLevels.ADMIN (fun _ => ((37 : Nat), ["body ran"]))
      (fun _ => ((37 : Nat), ["body ran"])) UserLevels.ADMIN).1⟩
  exact (c5_permissions_gate UserLevels.ADMIN (fun _ => ((37 : Nat), ["body ran"]))
      (fun _ => ((37 : Nat), ["body ran"])) UserLevels.ADMIN).2.2 (by decide)

/- ------------------------------------------------------------------ -/
/- C7: give_item_to_player chunking                                   -/
/- ------------------------------------------------------------------ -/

/-- C7: for a positive requested count, `give_item_to_player` sends frames
    whose item-count field is `min(remaining, 1000) + 1`, decrementing the
    remaining count by the capped chunk size until exhausted: writing the
    request as `1000 * k + r` with `0 < r ≤ 1000`, it sends `k` frames of
    1001 followed by one frame of `r + 1`; in particular a request for
    2500 sends exactly 3 frames (1001, 1001, 501). -/
theorem c7_give_item_chunking :
    (∀ (k : Nat) (r : Int), 0 < r → r ≤ 1000 →
      give_item_frames (1000 * (k : Int) + r) = List.replicate k 1001 ++ [r + 1]) ∧
    give_item_frames 2500 = [1001, 1001, 501] ∧
    (give_item_frames 2500).length = 3 := by
  have hgen := give_item_frames_split
  have h2500 : give_item_frames 2500 = [1001, 1001, 501] := by
    have := give_item_frames_split 2 500 (by omega) (by omega)
    norm_num at this
    simpa [List.replicate] using this
  exact ⟨hgen, h2500, by rw [h2500]; rfl⟩

/-- Witness for C7 at the concrete split 2500 = 1000·2 + 500. -/
theorem c7_give_item_chunking_witness :
    give_item_frames (1000 * ((2 : Nat) : Int) + 500) = List.replicate 2 1001 ++ [501] :=
  c7_give_item_chunking.1 2 500 (by omega) (by omega)

/- ------------------------------------------------------------------ -/
/- C9 / C10: extract_name                                             -/
/- ------------------------------------------------------------------ -/

theorem lastChar_ne_none (l : List Char) (h : l ≠ []) : ∃ c, lastChar l = some c := by
  induction l with
  | nil => exact absurd rfl h
  | cons a t ih =>
    cases t with
    | nil => exact ⟨a, rfl⟩
    | cons b r =>
      obtain ⟨c, hc⟩ := ih (by simp)
      exact ⟨c, by simpa [lastChar] using hc⟩

theorem extractScan_skip (term : Char) (pre : List String)
    (hpre : ∀ s ∈ pre, s.data ≠ [] ∧ lastChar s.data ≠ some term) :
    ∀ acc post, extractScan term acc (pre ++ post) = extractScan term (acc ++ pre) post := by
  induction pre with
  | nil => intro acc post; simp
  | cons s t ih =>
    intro acc post
    obtain ⟨hne, hnt⟩ := hpre s (List.mem_cons_self s t)
    obtain ⟨lc, hlc⟩ := lastChar_ne_none s.data hne
    have hlcne : lc ≠ term := fun h => hnt (h ▸ hlc)
    simp only [List.cons_append, extractScan, hlc, if_neg hlcne, List.append_eq]
    rw [ih (fun x hx => hpre x (List.mem_cons_of_mem s hx)) (acc ++ [s]) post]
    simp

/-- C9: `extract_name` on a token list whose (non-empty) first token does
    not begin with a quote character returns that token and the remaining
    tokens; when the first token begins with a quote character, it
    accumulates tokens until one ends with the matching quote, returning
    the space-joined, quote-stripped name plus the remaining tokens (or
    the no-remainder sentinel when the name consumed the whole list), so
    `extract_name ["\"John", "Smith\"", "rest"]` gives
    `("John Smith", ["rest"])`; an opening quote with no closing quote
    raises ValueError. -/
theorem c9_extract_name :
    (∀ (tok : String) (c : Char) (cs : List Char) (rest : List String),
      tok.data = c :: cs → c ∉ quoteChars →
      extract_name (tok :: rest) = ExtractResult.ok tok (some rest)) ∧
    (∀ (first : String) (c : Char) (cs : List Char) (pre : List String) (closer : String)
        (post : List String),
      first.data = c :: cs → c ∈ quoteChars →
      (∀ s ∈ pre, s.data ≠ [] ∧ lastChar s.data ≠ some c) →
      lastChar closer.data = some c →
      extract_name (first :: (pre ++ closer :: post)) =
        ExtractResult.ok
          (String.intercalate " " ((String.mk cs :: pre) ++ [String.mk closer.data.dropLast]))
          (if post.isEmpty then none else some post)) ∧
    (∀ (first : String) (c : Char) (cs : List Char) (toks : List String),
      first.data = c :: cs → c ∈ quoteChars →
      (∀ s ∈ toks, s.data ≠ [] ∧ lastChar s.data ≠ some c) →
      extract_name (first :: toks) = ExtractResult.valueError) ∧
    extract_name ["\"John", "Smith\"", "rest"] = ExtractResult.ok "John Smith" (some ["rest"]) := by
  refine ⟨?_, ?_, ?_, by decide⟩
  · intro tok c cs rest htok hq
    simp only [extract_name, htok, if_pos hq]
  · intro first c cs pre closer post hfirst hq hpre hcl
    simp only [extract_name, hfirst, if_neg (not_not_intro hq)]
    rw [extractScan_skip c pre hpre [String.mk cs] (closer :: post)]
    rcases post with _ | ⟨p, ps⟩ <;> simp [extractScan, hcl]
  · intro first c cs toks hfirst hq htoks
    simp only [extract_name, hfirst, if_neg (not_not_intro hq)]
    rw [show toks = toks ++ [] by simp, extractScan_skip c toks htoks [String.mk cs] []]
    rfl

/-- Witness for C9: the three behaviours at concrete inputs. -/
theorem c9_extract_name_witness :
    extract_name ["Bob", "extra"] = ExtractResult.ok "Bob" (some ["extra"]) ∧
    extract_name ("\"John" :: ([] ++ "Smith\"" :: ["rest"])) =
      ExtractResult.ok
        (String.intercalate " "
          ((String.mk "John".data :: []) ++ [String.mk "Smith\"".data.dropLast]))
        (if (["rest"] : List String).isEmpty then none else some ["rest"]) ∧
    extract_name ["\x27John", "Smith"] = ExtractResult.valueError := by
  refine ⟨c9_extract_name.1 "Bob" 'B' "ob".data ["extra"] rfl (by decide), ?_, ?_⟩
  · exact c9_extract_name.2.1 "\"John" '"' "John".data [] "Smith\"" ["rest"] rfl (by decide)
      (by intro s hs; simp at hs) (by decide)
  · refine c9_extract_name.2.2.1 "\x27John" '\x27' "John".data ["Smith"] rfl (by decide) ?_
    intro s hs
    simp only [List.mem_singleton] at hs
    subst hs
    exact ⟨by decide, by decide⟩

/-- C10 counterexample: the first token of `["\"Bob\"", "x\""]` both
    begins and ends with the double-quote character, yet `extract_name`
    does not raise ValueError: the scan finds the later token `x"` ending
    with the quote and returns normally. -/
theorem c10_counterexample :
    extract_name ["\"Bob\"", "x\""] = ExtractResult.ok "Bob\" x" none ∧
    ExtractResult.ok "Bob\" x" none ≠ ExtractResult.valueError := by
  constructor
  · decide
  · decide

/-- C10 (amended): when the first token begins and ends with the same
    quote character and no subsequent token ends with that quote
    character — in particular for the single-element list `["\"Bob\""]` —
    `extract_name` raises the missing-terminator ValueError rather than
    returning the unquoted name, because the closing-quote scan only
    examines tokens after the first. -/
theorem c10_fully_quoted_first_token (first : String) (c : Char) (cs : List Char)
    (toks : List String) (hfirst : first.data = c :: cs) (hq : c ∈ quoteChars)
    (hlast : lastChar first.data = some c)
    (htoks : ∀ s ∈ toks, s.data ≠ [] ∧ lastChar s.data ≠ some c) :
    extract_name (first :: toks) = ExtractResult.valueError := by
  simp only [extract_name, hfirst, if_neg (not_not_intro hq)]
  rw [show toks = toks ++ [] by simp, extractScan_skip c toks htoks [String.mk cs] []]
  rfl

/-- Witness for amended C10: the single-element fully quoted token. -/
theorem c10_fully_quoted_first_token_witness :
    extract_name ["\"Bob\""] = ExtractResult.valueError :=
  c10_fully_quoted_first_token "\"Bob\"" '"' "Bob\"".data [] rfl (by decide) (by decide)
    (by intro s hs; simp at hs)

/- ------------------------------------------------------------------ -/
/- C2: CommandDispatchPlugin.on_chat_sent                             -/
/- ------------------------------------------------------------------ -/

/-- C2 counterexample: a chat message beginning with the command prefix
    whose first token names a registered command whose handler raises
    makes `on_chat_sent` return `None` (the `return False` inside the
    `try` block is skipped when the exception is caught), not `False`. -/
theorem c2_counterexample :
    on_chat_sent '/' [("boom", true)] "/boom" = (ChatOutcome.retNone, []) ∧
    ChatOutcome.retNone ≠ ChatOutcome.retFalse := by
  constructor
  · decide
  · decide

/-- C2 (amended): for a chat message beginning with the command prefix
    and containing at least one token, `on_chat_sent` returns `False`
    when the first token names a registered command whose handler
    completes without raising, and when it names an unregistered command
    (after replying "Couldn't find a command called <prefix><name>");
    but when the matched handler raises, the error is logged and
    swallowed and the method returns `None` (no explicit result), so
    only in the two non-raising cases is the message vetoed. -/
theorem c2_chat_command_veto (prefixChar : Char) (commands : List (String × Bool))
    (message : String) (c : Char) (restChars : List Char) (cmd : String) (args : List String)
    (hmsg : message.data = c :: restChars) (hpc : c = prefixChar)
    (hsplit : pySplit restChars = cmd :: args) :
    (assocLookup commands cmd = some false →
      on_chat_sent prefixChar commands message = (ChatOutcome.retFalse, [])) ∧
    (assocLookup commands cmd = none →
      on_chat_sent prefixChar commands message =
        (ChatOutcome.retFalse,
          ["Couldn\x27t find a command called " ++ String.mk [prefixChar] ++ cmd])) ∧
    (assocLookup commands cmd = some true →
      on_chat_sent prefixChar commands message = (ChatOutcome.retNone, [])) := by
  refine ⟨?_, ?_, ?_⟩ <;> intro hl <;>
    simp only [on_chat_sent, hmsg, hpc, if_pos rfl, hsplit, hl, Bool.false_eq_true,
      if_neg, if_pos, ite_false, ite_true]

/-- Witness for amended C2: the three outcomes at concrete inputs. -/
theorem c2_chat_command_veto_witness :
    on_chat_sent '/' [("go", false)] "/go x" = (ChatOutcome.retFalse, []) ∧
    on_chat_sent '/' [] "/oops" =
      (ChatOutcome.retFalse,
        ["Couldn\x27t find a command called " ++ String.mk ['/'] ++ "oops"]) ∧
    on_chat_sent '/' [("crashy", true)] "/crashy" = (ChatOutcome.retNone, []) := by
  refine ⟨?_, ?_, ?_⟩
  · exact (c2_chat_command_veto '/' [("go", false)] "/go x" '/' "go x".data "go" ["x"]
      rfl rfl (by decide)).1 (by decide)
  · exact (c2_chat_command_veto '/' [] "/oops" '/' "oops".data "oops" []
      rfl rfl (by decide)).2.1 (by decide)
  · exact (c2_chat_command_veto '/' [("crashy", true)] "/crashy" '/' "crashy".data "crashy" []
      rfl rfl (by decide)).2.2 (by decide)

/- ------------------------------------------------------------------ -/
/- core_plugins/player_manager/manager.py: PlayerManager              -/
/- ------------------------------------------------------------------ -/

/-- A row of the `players` table (the `last_seen` timestamp is omitted;
    it carries wall-clock time and takes no part in any claim). -/
structure PlayerRec where
  uuid : String
  name : String
  access_level : Int
  logged_in : Bool
  protoH : Option String
  client_id : Int
  ip : String
  ips : List String
deriving DecidableEq

/-- The two login-admission rejections of `fetch_or_create`:
    `twisted.words.ewords.AlreadyLoggedIn` and the local `Banned`. -/
inductive FetchErr where
  | alreadyLoggedIn
  | banned
deriving DecidableEq

/-- Lower-cased character list of a string, modelling SQL `func.lower`
    in the case-insensitive `whois` name comparison. -/
def lowerChars (s : String) : List Char := s.data.map Char.toLower

/-- `PlayerManager.whois(name)`: is some currently-logged-in player's
    name case-insensitively equal to `name`? -/
def whoisAny (players : List PlayerRec) (name : String) : Bool :=
  players.any (fun p => p.logged_in && decide (lowerChars p.name = lowerChars name))

/-- Termination measure for the `while self.whois(name): name += "_"`
    loop: an upper bound on logged-in players' name lengths. -/
def maxLoggedNameLen : List PlayerRec → Nat
  | [] => 0
  | p :: rest =>
    if p.logged_in then max p.name.length (maxLoggedNameLen rest) else maxLoggedNameLen rest

theorem lowerChars_length (s : String) : (lowerChars s).length = s.length := by
  rw [lowerChars, List.length_map]
  rfl

theorem whoisAny_length_le (players : List PlayerRec) (name : String)
    (h : whoisAny players name = true) : name.length ≤ maxLoggedNameLen players := by
  induction players with
  | nil => simp [whoisAny] at h
  | cons p rest ih =>
    simp only [whoisAny, List.any_cons, Bool.or_eq_true, Bool.and_eq_true,
      decide_eq_true_eq] at h
    rcases h with ⟨hl, heq⟩ | ht
    · have hlen : p.name.length = name.length := by
        have hc := congrArg List.length heq
        rw [lowerChars_length, lowerChars_length] at hc
        exact hc
      simp only [maxLoggedNameLen, if_pos hl]
      exact le_trans (le_of_eq hlen.symm) (Nat.le_max_left _ _)
    · have hrest := ih ht
      simp only [maxLoggedNameLen]
      by_cases hl : p.logged_in
      · rw [if_pos hl]
        exact le_trans hrest (Nat.le_max_right _ _)
      · rw [if_neg hl]
        exact hrest

/-- `while self.whois(name): name += "_"` — resolve logged-in-name
    collisions by affixing underscores until the name is unique. -/
def uniquifyName (players : List PlayerRec) (name : String) : String :=
  if h : whoisAny players name = true then uniquifyName players (name ++ "_")
  else name
termination_by maxLoggedNameLen players + 1 - name.length
decreasing_by
  have hle := whoisAny_length_le players name h
  have hlen : (name ++ "_").length = name.length + 1 := by
    rw [String.length_append]
    rfl
  omega

/-- `PlayerManager.fetch_or_create(uuid, name, ip, protocol)` acting on
    the players table and ban table: reject an already-logged-in uuid,
    then a banned ip; uniquify the name against logged-in players; update
    the existing row for the uuid (name, new ip appended, protocol) or
    insert a fresh GUEST row; finally force OWNER when the uuid is the
    configured owner uuid.  Returns the resulting record and table. -/
def fetch_or_create (ownerUuid : String) (players : List PlayerRec) (bans : List String)
    (uuid name ip : String) (protoH : Option String) :
    Except FetchErr (PlayerRec × List PlayerRec) :=
  if ∃ p ∈ players, p.uuid = uuid ∧ p.logged_in = true then
    .error .alreadyLoggedIn
  else if ip ∈ bans then
    .error .banned
  else
    (let name' := uniquifyName players name
     match players.find? (fun p => p.uuid == uuid) with
     | some p =>
       let p1 := { p with name := name' }
       let p2 := if ip ∈ p1.ips then p1 else { p1 with ips := p1.ips ++ [ip], ip := ip }
       let p3 := { p2 with protoH := protoH }
       let p4 :=
         if uuid = ownerUuid then { p3 with access_level := UserLevels.OWNER } else p3
       .ok (p4, players.map (fun q => if q.uuid == uuid then p4 else q))
     | none =>
       let newP : PlayerRec :=
         { uuid := uuid, name := name', access_level := UserLevels.GUEST,
           logged_in := false, protoH := protoH, client_id := -1, ip := ip, ips := [ip] }
       let newP' :=
         if uuid = ownerUuid then { newP with access_level := UserLevels.OWNER } else newP
       .ok (newP', players ++ [newP']))

/-- C3: `fetch_or_create` raises AlreadyLoggedIn when a player with the
    uuid is currently marked logged in; raises Banned when the ip is in
    the ban table (for any identity passing the logged-in check, which
    the claim's first clause says takes precedence); and a brand-new uuid
    equal to the configured owner uuid yields a record at OWNER level,
    while any other brand-new uuid yields a record at GUEST level. -/
theorem c3_fetch_or_create_admission (ownerUuid : String) (players : List PlayerRec)
    (bans : List String) (uuid name ip : String) (protoH : Option String) :
    ((∃ p ∈ players, p.uuid = uuid ∧ p.logged_in = true) →
      fetch_or_create ownerUuid players bans uuid name ip protoH =
        Except.error FetchErr.alreadyLoggedIn) ∧
    ((¬ ∃ p ∈ players, p.uuid = uuid ∧ p.logged_in = true) → ip ∈ bans →
      fetch_or_create ownerUuid players bans uuid name ip protoH =
        Except.error FetchErr.banned) ∧
    ((∀ p ∈ players, p.uuid ≠ uuid) → ip ∉ bans → uuid = ownerUuid →
      ∃ rec rest, fetch_or_create ownerUuid players bans uuid name ip protoH =
        Except.ok (rec, rest) ∧ rec.access_level = UserLevels.OWNER ∧ rec.uuid = uuid) ∧
    ((∀ p ∈ players, p.uuid ≠ uuid) → ip ∉ bans → uuid ≠ ownerUuid →
      ∃ rec rest, fetch_or_create ownerUuid players bans uuid name ip protoH =
        Except.ok (rec, rest) ∧ rec.access_level = UserLevels.GUEST ∧ rec.uuid = uuid) := by
  refine ⟨?_, ?_, ?_, ?_⟩
  · intro hex
    rw [fetch_or_create, if_pos hex]
  · intro hnex hban
    rw [fetch_or_create, if_neg hnex, if_pos hban]
  · intro hnew hban howner
    have hnex : ¬ ∃ p ∈ players, p.uuid = uuid ∧ p.logged_in = true := by
      rintro ⟨p, hp, hu, _⟩
      exact hnew p hp hu
    have hfind : players.find? (fun p => p.uuid == uuid) = none := by
      rw [List.find?_eq_none]
      intro p hp
      simpa using hnew p hp
    rw [fetch_or_create, if_neg hnex, if_neg hban]
    simp only [hfind, if_pos howner]
    exact ⟨_, _, rfl, rfl, rfl⟩
  · intro hnew hban howner
    have hnex : ¬ ∃ p ∈ players, p.uuid = uuid ∧ p.logged_in = true := by
      rintro ⟨p, hp, hu, _⟩
      exact hnew p hp hu
    have hfind : players.find? (fun p => p.uuid == uuid) = none := by
      rw [List.find?_eq_none]
      intro p hp
      simpa using hnew p hp
    rw [fetch_or_create, if_neg hnex, if_neg hban]
    simp only [hfind, if_neg howner]
    exact ⟨_, _, rfl, rfl, rfl⟩

/-- A concrete currently-logged-in player row, for the C3 witness. -/
def samplePlayerAl : PlayerRec where
  uuid := "u1"
  name := "Al"
  access_level := 0
  logged_in := true
  protoH := none
  client_id := -1
  ip := "7.7.7.7"
  ips := ["7.7.7.7"]

/-- Witness for C3 at concrete tables: a logged-in uuid is rejected, a
    banned ip is rejected, the owner uuid is created at OWNER, another
    new uuid at GUEST. -/
theorem c3_fetch_or_create_admission_witness :
    fetch_or_create "OWN" [samplePlayerAl] [] "u1" "Al" "7.7.7.7" none =
      Except.error FetchErr.alreadyLoggedIn ∧
    fetch_or_create "OWN" [] ["9.9.9.9"] "u2" "Bo" "9.9.9.9" none =
      Except.error FetchErr.banned ∧
    (∃ rec rest, fetch_or_create "OWN" [] [] "OWN" "Cy" "1.1.1.1" none =
      Except.ok (rec, rest) ∧ rec.access_level = UserLevels.OWNER ∧ rec.uuid = "OWN") ∧
    (∃ rec rest, fetch_or_create "OWN" [] [] "u3" "Di" "1.1.1.1" none =
      Except.ok (rec, rest) ∧ rec.access_level = UserLevels.GUEST ∧ rec.uuid = "u3") := by
  refine ⟨?_, ?_, ?_, ?_⟩
  · exact (c3_fetch_or_create_admission "OWN" [samplePlayerAl] [] "u1" "Al" "7.7.7.7" none).1
      (by decide)
  · exact (c3_fetch_or_create_admission "OWN" [] _ "u2" "Bo" "9.9.9.9" none).2.1
      (by simp) (by decide)
  · exact (c3_fetch_or_create_admission "OWN" [] [] "OWN" "Cy" "1.1.1.1" none).2.2.1
      (by simp) (by decide) rfl
  · exact (c3_fetch_or_create_admission "OWN" [] [] "u3" "Di" "1.1.1.1" none).2.2.2
      (by simp) (by decide) (by decide)

/- ------------------------------------------------------------------ -/
/- plugins/planet_protect/planet_protect_plugin.py                    -/
/- ------------------------------------------------------------------ -/

/-- Modelled from the spec: `packets.EntityType`, absent from src/ — an
    entity-type enumeration with at least a PROJECTILE value; all other
    values are collapsed into OTHER. -/
inductive EntityType where
  | PROJECTILE
  | OTHER
deriving DecidableEq

/-- Modelled from the spec: `packets.InteractionType`, absent from src/ —
    an interaction-type enumeration with at least an OPEN_CONTAINER
    value; all other values are collapsed into OTHER. -/
inductive InteractionType where
  | OPEN_CONTAINER
  | OTHER
deriving DecidableEq

/-- One decoded entity of an entity-create packet: its type tag and its
    payload (already parsed as the projectile name star_string). -/
structure Entity where
  entity_type : EntityType
  payload : String
deriving DecidableEq

/-- The Planet Protection plugin's persisted state. -/
structure ProtectConfig where
  protected_planets : List String
  player_planets : List (String × List String)
  blacklist : List String
  block_all : Bool
deriving DecidableEq

/-- The acting player's fields consulted by the protection hooks. -/
structure ProtActor where
  planet : String
  access_level : Int
  org_name : String
deriving DecidableEq

/-- A hook result: `.error ()` models a raised KeyError (the planet has
    no allow-list entry in `player_planets`), `.ok (some b)` an explicit
    True/False return, `.ok none` falling through returning None. -/
abbrev HookOut := Except Unit (Option Bool)

/-- `PlanetProtectPlugin.on_modify_tile_list`. -/
def on_modify_tile_list (cfg : ProtectConfig) (a : ProtActor) : HookOut :=
  if a.planet ∈ cfg.protected_planets ∧ a.access_level < UserLevels.ADMIN then
    match assocLookup cfg.player_planets a.planet with
    | none => .error ()
    | some allow =>
      if a.org_name ∈ allow then .ok (some true) else .ok (some false)
  else .ok none

/-- `PlanetProtectPlugin.on_damage_tile_group`. -/
def on_damage_tile_group (cfg : ProtectConfig) (a : ProtActor) : HookOut :=
  if a.planet ∈ cfg.protected_planets ∧ a.access_level < UserLevels.ADMIN then
    match assocLookup cfg.player_planets a.planet with
    | none => .error ()
    | some allow =>
      if a.org_name ∈ allow then .ok (some true) else .ok (some false)
  else .ok none

/-- `PlanetProtectPlugin.on_collect_liquid`. -/
def on_collect_liquid (cfg : ProtectConfig) (a : ProtActor) : HookOut :=
  if a.planet ∈ cfg.protected_planets ∧ a.access_level < UserLevels.ADMIN then
    match assocLookup cfg.player_planets a.planet with
    | none => .error ()
    | some allow =>
      if a.org_name ∈ allow then .ok (some true) else .ok (some false)
  else .ok none

/-- `PlanetProtectPlugin.on_connect_wire`. -/
def on_connect_wire (cfg : ProtectConfig) (a : ProtActor) : HookOut :=
  if a.planet ∈ cfg.protected_planets ∧ a.access_level < UserLevels.ADMIN then
    match assocLookup cfg.player_planets a.planet with
    | none => .error ()
    | some allow =>
      if a.org_name ∈ allow then .ok (some true) else .ok (some false)
  else .ok none

/-- `PlanetProtectPlugin.on_disconnect_all_wires`. -/
def on_disconnect_all_wires (cfg : ProtectConfig) (a : ProtActor) : HookOut :=
  if a.planet ∈ cfg.protected_planets ∧ a.access_level < UserLevels.ADMIN then
    match assocLookup cfg.player_planets a.planet with
    | none => .error ()
    | some allow =>
      if a.org_name ∈ allow then .ok (some true) else .ok (some false)
  else .ok none

/-- The `for entity in entities.entity:` loop of `on_entity_create`:
    for each projectile, return False under `block_all`, or when the
    parsed payload is blacklisted; otherwise continue; falling off the
    end returns None. -/
def projectileScan (cfg : ProtectConfig) : List Entity → Option Bool
  | [] => none
  | e :: rest =>
    if e.entity_type = EntityType.PROJECTILE then
      (if cfg.block_all then some false
       else if e.payload ∈ cfg.blacklist then some false
       else projectileScan cfg rest)
    else projectileScan cfg rest

/-- `PlanetProtectPlugin.on_entity_create`. -/
def on_entity_create (cfg : ProtectConfig) (a : ProtActor) (entities : List Entity) : HookOut :=
  if a.planet ∈ cfg.protected_planets ∧ a.access_level < UserLevels.ADMIN then
    match assocLookup cfg.player_planets a.planet with
    | none => .error ()
    | some allow =>
      if a.org_name ∈ allow then .ok (some true) else .ok (projectileScan cfg entities)
  else .ok none

/-- `PlanetProtectPlugin.on_entity_interact_result`. -/
def on_entity_interact_result (cfg : ProtectConfig) (a : ProtActor)
    (itype : InteractionType) : HookOut :=
  if a.planet ∈ cfg.protected_planets ∧ a.access_level < UserLevels.ADMIN then
    match assocLookup cfg.player_planets a.planet with
    | none => .error ()
    | some allow =>
      if a.org_name ∈ allow then .ok (some true)
      else if itype = InteractionType.OPEN_CONTAINER then .ok (some false) else .ok none
  else .ok none

/-- A hook outcome that does not veto the action: an explicit True or an
    absent (None) result. -/
def Permitted (r : HookOut) : Prop := r = .ok (some true) ∨ r = .ok none

theorem projectileScan_blacklisted (cfg : ProtectConfig) (entities : List Entity)
    (he : ∃ e ∈ entities, e.entity_type = EntityType.PROJECTILE ∧ e.payload ∈ cfg.blacklist) :
    projectileScan cfg entities = some false := by
  induction entities with
  | nil => rcases he with ⟨e, he, _⟩; cases he
  | cons e t ih =>
    rcases he with ⟨w, hw, hwp, hwb⟩
    rcases List.mem_cons.mp hw with rfl | hwt
    · by_cases hb : cfg.block_all
      · simp [projectileScan, hwp, hb]
      · simp [projectileScan, hwp, hb, hwb]
    · by_cases hp : e.entity_type = EntityType.PROJECTILE
      · by_cases hb : cfg.block_all
        · simp [projectileScan, hp, hb]
        · by_cases hbl : e.payload ∈ cfg.blacklist
          · simp [projectileScan, hp, hb, hbl]
          · simp only [projectileScan, if_pos hp, if_neg hb, if_neg hbl]
            exact ih ⟨w, hwt, hwp, hwb⟩
      · simp only [projectileScan, if_neg hp]
        exact ih ⟨w, hwt, hwp, hwb⟩

/-- C6: on a protected planet, an actor below ADMIN whose name is not on
    that planet's allow-list is vetoed by every gated hook (tile-list
    modification, tile-group damage, liquid collection, wire connect,
    wire disconnect, container-open interaction, and entity creation
    containing a blacklisted projectile); an actor at ADMIN or above, or
    allow-listed, or on an unprotected planet, is permitted by every
    hook. -/
theorem c6_planet_protect_gates (cfg : ProtectConfig) (a : ProtActor) (allow : List String)
    (entities : List Entity) (itype : InteractionType) :
    ((a.planet ∈ cfg.protected_planets) → a.access_level < UserLevels.ADMIN →
      assocLookup cfg.player_planets a.planet = some allow → a.org_name ∉ allow →
      on_modify_tile_list cfg a = Except.ok (some false) ∧
      on_damage_tile_group cfg a = Except.ok (some false) ∧
      on_collect_liquid cfg a = Except.ok (some false) ∧
      on_connect_wire cfg a = Except.ok (some false) ∧
      on_disconnect_all_wires cfg a = Except.ok (some false) ∧
      on_entity_interact_result cfg a InteractionType.OPEN_CONTAINER =
        Except.ok (some false) ∧
      ((∃ e ∈ entities, e.entity_type = EntityType.PROJECTILE ∧
          e.payload ∈ cfg.blacklist) →
        on_entity_create cfg a entities = Except.ok (some false))) ∧
    ((UserLevels.ADMIN ≤ a.access_level ∨ a.planet ∉ cfg.protected_planets ∨
        (assocLookup cfg.player_planets a.planet = some allow ∧ a.org_name ∈ allow)) →
      Permitted (on_modify_tile_list cfg a) ∧
      Permitted (on_damage_tile_group cfg a) ∧
      Permitted (on_collect_liquid cfg a) ∧
      Permitted (on_connect_wire cfg a) ∧
      Permitted (on_disconnect_all_wires cfg a) ∧
      Permitted (on_entity_interact_result cfg a itype) ∧
      Permitted (on_entity_create cfg a entities)) := by
  constructor
  · intro hprot hlvl hlook hmem
    have hcond : a.planet ∈ cfg.protected_planets ∧ a.access_level < UserLevels.ADMIN :=
      ⟨hprot, hlvl⟩
    refine ⟨?_, ?_, ?_, ?_, ?_, ?_, ?_⟩
    · simp [on_modify_tile_list, hcond, hlook, hmem]
    · simp [on_damage_tile_group, hcond, hlook, hmem]
    · simp [on_collect_liquid, hcond, hlook, hmem]
    · simp [on_connect_wire, hcond, hlook, hmem]
    · simp [on_disconnect_all_wires, hcond, hlook, hmem]
    · simp [on_entity_interact_result, hcond, hlook, hmem]
    · intro he
      simp [on_entity_create, hcond, hlook, hmem, projectileScan_blacklisted cfg entities he]
  · intro hcase
    rcases hcase with hadm | hunprot | ⟨hlook, hmem⟩
    · have hcond : ¬ (a.planet ∈ cfg.protected_planets ∧
          a.access_level < UserLevels.ADMIN) := by
        rintro ⟨_, hlt⟩
        omega
      refine ⟨?_, ?_, ?_, ?_, ?_, ?_, ?_⟩ <;>
        simp [on_modify_tile_list, on_damage_tile_group, on_collect_liquid, on_connect_wire,
          on_disconnect_all_wires, on_entity_interact_result, on_entity_create, hcond,
          Permitted]
    · have hcond : ¬ (a.planet ∈ cfg.protected_planets ∧
          a.access_level < UserLevels.ADMIN) := by
        rintro ⟨hin, _⟩
        exact hunprot hin
      refine ⟨?_, ?_, ?_, ?_, ?_, ?_, ?_⟩ <;>
        simp [on_modify_tile_list, on_damage_tile_group, on_collect_liquid, on_connect_wire,
          on_disconnect_all_wires, on_entity_interact_result, on_entity_create, hcond,
          Permitted]
    · by_cases hcond : a.planet ∈ cfg.protected_planets ∧ a.access_level < UserLevels.ADMIN
      · refine ⟨?_, ?_, ?_, ?_, ?_, ?_, ?_⟩ <;>
          simp [on_modify_tile_list, on_damage_tile_group, on_collect_liquid,
            on_connect_wire, on_disconnect_all_wires, on_entity_interact_result,
            on_entity_create, hcond, hlook, hmem, Permitted]
      · refine ⟨?_, ?_, ?_, ?_, ?_, ?_, ?_⟩ <;>
          simp [on_modify_tile_list, on_damage_tile_group, on_collect_liquid,
            on_connect_wire, on_disconnect_all_wires, on_entity_interact_result,
            on_entity_create, hcond, Permitted]

/-- A concrete protection state, for the C6 witness. -/
def sampleProtectCfg : ProtectConfig where
  protected_planets := ["alpha:1:2:3:4:5"]
  player_planets := [("alpha:1:2:3:4:5", ["Friend"])]
  blacklist := ["grenade"]
  block_all := false

/-- A GUEST actor not on the allow-list, for the C6 witness. -/
def sampleGuestActor : ProtActor where
  planet := "alpha:1:2:3:4:5"
  access_level := 0
  org_name := "Mallory"

/-- An ADMIN actor, for the C6 witness. -/
def sampleAdminActor : ProtActor where
  planet := "alpha:1:2:3:4:5"
  access_level := 100
  org_name := "Mallory"

/-- A blacklisted projectile entity, for the C6 witness. -/
def sampleProjectile : Entity where
  entity_type := EntityType.PROJECTILE
  payload := "grenade"

/-- Witness for C6: a GUEST on a protected planet with an allow-list he
    is not on is vetoed by all hooks (including a blacklisted-projectile
    entity create); an ADMIN on the same planet is permitted. -/
theorem c6_planet_protect_gates_witness :
    on_modify_tile_list sampleProtectCfg sampleGuestActor = Except.ok (some false) ∧
    on_entity_create sampleProtectCfg sampleGuestActor [sampleProjectile] =
      Except.ok (some false) ∧
    Permitted (on_modify_tile_list sampleProtectCfg sampleAdminActor) := by
  refine ⟨?_, ?_, ?_⟩
  · exact ((c6_planet_protect_gates sampleProtectCfg sampleGuestActor ["Friend"] []
      InteractionType.OTHER).1 (by decide) (by decide) (by decide) (by decide)).1
  · exact ((c6_planet_protect_gates sampleProtectCfg sampleGuestActor ["Friend"]
      [sampleProjectile] InteractionType.OTHER).1
      (by decide) (by decide) (by decide) (by decide)).2.2.2.2.2.2 (by decide)
  · exact ((c6_planet_protect_gates sampleProtectCfg sampleAdminActor ["Friend"] []
      InteractionType.OTHER).2 (Or.inl (by decide))).1

/- ------------------------------------------------------------------ -/
/- utility_functions.recursive_dictionary_update                      -/
/- ------------------------------------------------------------------ -/

/-- A Python configuration value: either a non-mapping leaf (modelled by
    an integer payload) or a dict of string keys (insertion-ordered,
    as CPython builds them). -/
inductive JVal where
  | scalar (n : Int)
  | dict (entries : List (String × JVal))

/-- Python dict assignment `d[k] = v`: replace the value at an existing
    key in place, otherwise append the new key. -/
def setKey : List (String × JVal) → String → JVal → List (String × JVal)
  | [], k, v => [(k, v)]
  | (k', v') :: rest, k, v =>
    if k' = k then (k', v) :: rest else (k', v') :: setKey rest k v

/-- Python `d.get(k, {})`. -/
def getOrEmptyDict (es : List (String × JVal)) (k : String) : JVal :=
  match assocLookup es k with
  | some v => v
  | none => .dict []

mutual

/-- `utility_functions.recursive_dictionary_update(d, u)`: iterate the
    override's items; a mapping value is merged recursively into
    `d.get(k, {})` and stored, any other value overwrites.  `.error ()`
    models the TypeError/AttributeError Python raises when `u` is not a
    mapping, or when `d` is not a mapping while `u` has items. -/
def rdu : JVal → JVal → Except Unit JVal
  | _, .scalar _ => .error ()
  | d, .dict entries => rduEntries d entries
termination_by d u => sizeOf u

/-- The `for k, v in u.iteritems():` loop of
    `recursive_dictionary_update`, acting on the accumulated `d`. -/
def rduEntries : JVal → List (String × JVal) → Except Unit JVal
  | d, [] => .ok d
  | .scalar _, (_, _) :: _ => .error ()
  | .dict dE, (k, .scalar n) :: rest => rduEntries (.dict (setKey dE k (.scalar n))) rest
  | .dict dE, (k, .dict ves) :: rest =>
    (match rdu (getOrEmptyDict dE k) (.dict ves) with
     | .error e => .error e
     | .ok m => rduEntries (.dict (setKey dE k m)) rest)
termination_by d es => sizeOf es

end

/-- Well-formedness of a value as a Python object: every dict (at every
    depth) has no duplicate keys — guaranteed for real Python dicts. -/
def wfJ : JVal → Bool
  | .scalar _ => true
  | .dict [] => true
  | .dict ((k, v) :: rest) =>
    !(assocLookup rest k).isSome && wfJ v && wfJ (.dict rest)

/-- Navigate a value along a path of keys. -/
def getPath : JVal → List String → Option JVal
  | v, [] => some v
  | .dict es, k :: rest =>
    (match assocLookup es k with
     | some v => getPath v rest
     | none => none)
  | .scalar _, _ :: _ => none

/- ------------------------------------------------------------------ -/
/- C8: recursive_dictionary_update lemmas                             -/
/- ------------------------------------------------------------------ -/

theorem assocLookup_setKey_self (es : List (String × JVal)) (k : String) (v : JVal) :
    assocLookup (setKey es k v) k = some v := by
  induction es with
  | nil => simp [setKey, assocLookup]
  | cons e rest ih =>
    obtain ⟨k', v'⟩ := e
    by_cases hk : k' = k
    · simp [setKey, hk, assocLookup]
    · simp [setKey, hk, assocLookup, ih]

theorem assocLookup_setKey_ne (es : List (String × JVal)) (k key : String) (v : JVal)
    (h : key ≠ k) : assocLookup (setKey es k v) key = assocLookup es key := by
  induction es with
  | nil =>
    have hne : ¬ (k = key) := fun hh => h hh.symm
    simp [setKey, assocLookup, hne]
  | cons e rest ih =>
    obtain ⟨k', v'⟩ := e
    by_cases hk : k' = k
    · subst hk
      have hne : ¬ (k' = key) := fun hh => h (hh.symm)
      simp [setKey, assocLookup, hne]
    · by_cases hk2 : k' = key
      · simp only [setKey, if_neg hk, assocLookup, if_pos hk2]
      · simp [setKey, hk, assocLookup, hk2, ih]

theorem setKey_of_lookup_eq (es : List (String × JVal)) (k : String) (v : JVal)
    (h : assocLookup es k = some v) : setKey es k v = es := by
  induction es with
  | nil => simp [assocLookup] at h
  | cons e rest ih =>
    obtain ⟨k', v'⟩ := e
    by_cases hk : k' = k
    · rw [assocLookup, if_pos hk] at h
      obtain rfl : v' = v := by injection h
      simp [setKey, hk]
    · rw [assocLookup, if_neg hk] at h
      simp [setKey, hk, ih h]

theorem assocLookup_mem (es : List (String × JVal)) (k : String) (v : JVal)
    (h : assocLookup es k = some v) : (k, v) ∈ es := by
  induction es with
  | nil => simp [assocLookup] at h
  | cons e rest ih =>
    obtain ⟨k', v'⟩ := e
    by_cases hk : k' = k
    · rw [assocLookup, if_pos hk] at h
      obtain rfl : v' = v := by injection h
      subst hk
      exact List.mem_cons_self _ _
    · rw [assocLookup, if_neg hk] at h
      exact List.mem_cons_of_mem _ (ih h)

theorem assocLookup_ne_none_of_mem (es : List (String × JVal)) (k : String) (v : JVal)
    (h : (k, v) ∈ es) : assocLookup es k ≠ none := by
  induction es with
  | nil => simp at h
  | cons e rest ih =>
    obtain ⟨k', v'⟩ := e
    rcases List.mem_cons.mp h with heq | htail
    · have h1 : k' = k := (congrArg Prod.fst heq).symm
      rw [assocLookup, if_pos h1]
      simp
    · by_cases hk : k' = k
      · simp [assocLookup, hk]
      · rw [assocLookup, if_neg hk]
        exact ih htail

theorem getOrEmptyDict_setKey_ne (es : List (String × JVal)) (k key : String) (v : JVal)
    (h : key ≠ k) : getOrEmptyDict (setKey es k v) key = getOrEmptyDict es key := by
  simp [getOrEmptyDict, assocLookup_setKey_ne es k key v h]

theorem rduEntries_untouched (es : List (String × JVal)) :
    ∀ (x : List (String × JVal)) (r : JVal) (k : String),
      rduEntries (.dict x) es = .ok r → assocLookup es k = none →
      ∃ rE, r = .dict rE ∧ assocLookup rE k = assocLookup x k := by
  induction es with
  | nil =>
    intro x r k hstep _
    simp only [rduEntries] at hstep
    obtain rfl : JVal.dict x = r := by injection hstep
    exact ⟨x, rfl, rfl⟩
  | cons e rest ih =>
    obtain ⟨k₀, v₀⟩ := e
    intro x r k hstep hnone
    have hk₀ : ¬ (k₀ = k) := by
      intro hh
      rw [assocLookup, if_pos hh] at hnone
      exact Option.some_ne_none _ hnone
    have hrest : assocLookup rest k = none := by
      rw [assocLookup, if_neg hk₀] at hnone
      exact hnone
    have hkne : k ≠ k₀ := fun hh => hk₀ hh.symm
    cases v₀ with
    | scalar n =>
      simp only [rduEntries] at hstep
      obtain ⟨rE, hr, hl⟩ := ih (setKey x k₀ (.scalar n)) r k hstep hrest
      exact ⟨rE, hr, by rw [hl, assocLookup_setKey_ne x k₀ k (.scalar n) hkne]⟩
    | dict ves =>
      simp only [rduEntries] at hstep
      cases hm : rdu (getOrEmptyDict x k₀) (.dict ves) with
      | error e => rw [hm] at hstep; simp at hstep
      | ok m =>
        rw [hm] at hstep
        simp only [] at hstep
        obtain ⟨rE, hr, hl⟩ := ih (setKey x k₀ m) r k hstep hrest
        exact ⟨rE, hr, by rw [hl, assocLookup_setKey_ne x k₀ k m hkne]⟩

theorem wfJ_cons (k : String) (v : JVal) (rest : List (String × JVal))
    (h : wfJ (.dict ((k, v) :: rest)) = true) :
    assocLookup rest k = none ∧ wfJ v = true ∧ wfJ (.dict rest) = true := by
  simp only [wfJ, Bool.and_eq_true, Bool.not_eq_true'] at h
  refine ⟨?_, h.1.2, h.2⟩
  cases hl : assocLookup rest k with
  | none => rfl
  | some w => rw [hl] at h; simp at h

theorem wfJ_mem_val (es : List (String × JVal)) :
    ∀ k v, wfJ (.dict es) = true → (k, v) ∈ es → wfJ v = true := by
  induction es with
  | nil => intro k v _ hmem; simp at hmem
  | cons e rest ih =>
    obtain ⟨k₀, v₀⟩ := e
    intro k v hwf hmem
    obtain ⟨_, hwv₀, hwrest⟩ := wfJ_cons k₀ v₀ rest hwf
    rcases List.mem_cons.mp hmem with heq | htail
    · obtain rfl : v₀ = v := congrArg Prod.snd heq.symm
      exact hwv₀
    · exact ih k v hwrest htail

theorem rduEntries_key_result (es : List (String × JVal)) :
    ∀ dE r k v, wfJ (.dict es) = true → rduEntries (.dict dE) es = .ok r → (k, v) ∈ es →
      ∃ rE w, r = .dict rE ∧ assocLookup rE k = some w ∧
        ((∃ n, v = .scalar n ∧ w = .scalar n) ∨
         (∃ ves, v = .dict ves ∧ rdu (getOrEmptyDict dE k) (.dict ves) = .ok w)) := by
  induction es with
  | nil => intro dE r k v _ _ hmem; simp at hmem
  | cons e rest ih =>
    obtain ⟨k₀, v₀⟩ := e
    intro dE r k v hwf hstep hmem
    obtain ⟨hk₀rest, hwv₀, hwrest⟩ := wfJ_cons k₀ v₀ rest hwf
    rcases List.mem_cons.mp hmem with heq | htail
    · obtain ⟨rfl, rfl⟩ : k = k₀ ∧ v = v₀ :=
        ⟨congrArg Prod.fst heq, congrArg Prod.snd heq⟩
      cases v with
      | scalar n =>
        simp only [rduEntries] at hstep
        obtain ⟨rE, hr, hl⟩ := rduEntries_untouched rest (setKey dE k (.scalar n)) r k
          hstep hk₀rest
        rw [assocLookup_setKey_self] at hl
        exact ⟨rE, .scalar n, hr, hl, Or.inl ⟨n, rfl, rfl⟩⟩
      | dict ves =>
        simp only [rduEntries] at hstep
        cases hm : rdu (getOrEmptyDict dE k) (.dict ves) with
        | error e0 => rw [hm] at hstep; simp at hstep
        | ok m =>
          rw [hm] at hstep
          simp only [] at hstep
          obtain ⟨rE, hr, hl⟩ := rduEntries_untouched rest (setKey dE k m) r k hstep hk₀rest
          rw [assocLookup_setKey_self] at hl
          exact ⟨rE, m, hr, hl, Or.inr ⟨ves, rfl, hm⟩⟩
    · have hkne : k ≠ k₀ := by
        intro hh
        subst hh
        exact assocLookup_ne_none_of_mem rest k v htail hk₀rest
      cases v₀ with
      | scalar n =>
        simp only [rduEntries] at hstep
        obtain ⟨rE, w, hr, hl, hcase⟩ := ih (setKey dE k₀ (.scalar n)) r k v hwrest hstep htail
        rcases hcase with hs | ⟨ves, hv, hrduv⟩
        · exact ⟨rE, w, hr, hl, Or.inl hs⟩
        · rw [getOrEmptyDict_setKey_ne dE k₀ k (.scalar n) hkne] at hrduv
          exact ⟨rE, w, hr, hl, Or.inr ⟨ves, hv, hrduv⟩⟩
      | dict ves₀ =>
        simp only [rduEntries] at hstep
        cases hm : rdu (getOrEmptyDict dE k₀) (.dict ves₀) with
        | error e0 => rw [hm] at hstep; simp at hstep
        | ok m =>
          rw [hm] at hstep
          simp only [] at hstep
          obtain ⟨rE, w, hr, hl, hcase⟩ := ih (setKey dE k₀ m) r k v hwrest hstep htail
          rcases hcase with hs | ⟨ves, hv, hrduv⟩
          · exact ⟨rE, w, hr, hl, Or.inl hs⟩
          · rw [getOrEmptyDict_setKey_ne dE k₀ k m hkne] at hrduv
            exact ⟨rE, w, hr, hl, Or.inr ⟨ves, hv, hrduv⟩⟩

theorem rduEntries_idem (es : List (String × JVal)) :
    ∀ d r, wfJ (.dict es) = true → rduEntries d es = .ok r → rduEntries r es = .ok r := by
  cases es with
  | nil =>
    intro d r _ _
    simp only [rduEntries]
  | cons e rest =>
    obtain ⟨k, v⟩ := e
    intro d r hwf hstep
    obtain ⟨hkn, hwv, hwrest⟩ := wfJ_cons k v rest hwf
    cases d with
    | scalar n₀ => simp [rduEntries] at hstep
    | dict dE =>
      cases v with
      | scalar n =>
        simp only [rduEntries] at hstep
        obtain ⟨rE, hr, hl⟩ := rduEntries_untouched rest (setKey dE k (.scalar n)) r k
          hstep hkn
        rw [assocLookup_setKey_self] at hl
        subst hr
        simp only [rduEntries]
        rw [setKey_of_lookup_eq rE k (.scalar n) hl]
        exact rduEntries_idem rest (.dict (setKey dE k (.scalar n))) (.dict rE) hwrest hstep
      | dict ves =>
        simp only [rduEntries] at hstep
        cases hm : rdu (getOrEmptyDict dE k) (.dict ves) with
        | error e0 => rw [hm] at hstep; simp at hstep
        | ok m =>
          rw [hm] at hstep
          simp only [] at hstep
          obtain ⟨rE, hr, hl⟩ := rduEntries_untouched rest (setKey dE k m) r k hstep hkn
          rw [assocLookup_setKey_self] at hl
          subst hr
          simp only [rduEntries]
          have hget : getOrEmptyDict rE k = m := by simp [getOrEmptyDict, hl]
          rw [hget]
          have hmidem : rdu m (.dict ves) = .ok m := by
            have h1 : rduEntries (getOrEmptyDict dE k) ves = .ok m := by
              simpa [rdu] using hm
            have h2 := rduEntries_idem ves (getOrEmptyDict dE k) m hwv h1
            simpa [rdu] using h2
          rw [hmidem]
          simp only []
          rw [setKey_of_lookup_eq rE k m hl]
          exact rduEntries_idem rest (.dict (setKey dE k m)) (.dict rE) hwrest hstep
termination_by sizeOf es

theorem rdu_idem (d u r : JVal) (hwf : wfJ u = true) (hstep : rdu d u = .ok r) :
    rdu r u = .ok r := by
  cases u with
  | scalar n => simp [rdu] at hstep
  | dict es =>
    have h1 : rduEntries d es = .ok r := by simpa [rdu] using hstep
    have h2 := rduEntries_idem es d r hwf h1
    simpa [rdu] using h2

theorem rdu_getPath_scalar (p : List String) :
    ∀ d u r n, wfJ u = true → rdu d u = .ok r →
      getPath u p = some (.scalar n) → getPath r p = some (.scalar n) := by
  induction p with
  | nil =>
    intro d u r n _ hstep hpath
    simp only [getPath] at hpath
    obtain rfl : u = JVal.scalar n := by injection hpath
    simp [rdu] at hstep
  | cons k rest ih =>
    intro d u r n hwf hstep hpath
    cases u with
    | scalar m => simp [getPath] at hpath
    | dict es =>
      simp only [getPath] at hpath
      cases hes : assocLookup es k with
      | none => rw [hes] at hpath; simp at hpath
      | some v =>
        rw [hes] at hpath
        simp only [] at hpath
        have hstep' : rduEntries d es = .ok r := by simpa [rdu] using hstep
        cases d with
        | scalar m₀ =>
          cases es with
          | nil => simp [assocLookup] at hes
          | cons e es' =>
            obtain ⟨k₁, v₁⟩ := e
            simp [rduEntries] at hstep'
        | dict dE =>
          have hmem := assocLookup_mem es k v hes
          obtain ⟨rE, w, hr, hlk, hcase⟩ :=
            rduEntries_key_result es dE r k v hwf hstep' hmem
          subst hr
          rcases hcase with ⟨n₀, hv, hw⟩ | ⟨ves, hv, hrduv⟩
          · subst hv
            cases rest with
            | nil =>
              simp only [getPath] at hpath
              obtain rfl : n₀ = n := by
                have := hpath
                injection this with hinj
                injection hinj
              subst hw
              simp [getPath, hlk]
            | cons q qs => simp [getPath] at hpath
          · subst hv
            have hwves : wfJ (.dict ves) = true := wfJ_mem_val es k (.dict ves) hwf hmem
            have hres := ih (getOrEmptyDict dE k) (.dict ves) w n hwves hrduv hpath
            simp only [getPath, hlk]
            exact hres

theorem rdu_getPath_sibling (p : List String) :
    ∀ j d u r w ues, wfJ u = true → rdu d u = .ok r →
      getPath u p = some (.dict ues) → assocLookup ues j = none →
      getPath d (p ++ [j]) = some w → getPath r (p ++ [j]) = some w := by
  induction p with
  | nil =>
    intro j d u r w ues hwf hstep hpath hj hd
    simp only [getPath] at hpath
    obtain rfl : u = JVal.dict ues := by injection hpath
    have hstep' : rduEntries d ues = .ok r := by simpa [rdu] using hstep
    cases d with
    | scalar m => simp [getPath] at hd
    | dict dE =>
      simp only [List.nil_append, getPath] at hd
      cases hdj : assocLookup dE j with
      | none => rw [hdj] at hd; simp at hd
      | some w' =>
        rw [hdj] at hd
        simp only [getPath] at hd
        obtain rfl : w' = w := by injection hd
        obtain ⟨rE, hr, hl⟩ := rduEntries_untouched ues dE r j hstep' hj
        subst hr
        rw [hdj] at hl
        simp [getPath, hl]
  | cons k rest ih =>
    intro j d u r w ues hwf hstep hpath hj hd
    cases u with
    | scalar m => simp [getPath] at hpath
    | dict es =>
      simp only [getPath] at hpath
      cases hes : assocLookup es k with
      | none => rw [hes] at hpath; simp at hpath
      | some v =>
        rw [hes] at hpath
        simp only [] at hpath
        have hstep' : rduEntries d es = .ok r := by simpa [rdu] using hstep
        cases d with
        | scalar m₀ =>
          rw [List.cons_append] at hd
          simp [getPath] at hd
        | dict dE =>
          rw [List.cons_append] at hd
          simp only [getPath] at hd
          cases hdk : assocLookup dE k with
          | none => rw [hdk] at hd; simp at hd
          | some dv =>
            rw [hdk] at hd
            simp only [] at hd
            have hmem := assocLookup_mem es k v hes
            obtain ⟨rE, w₀, hr, hlk, hcase⟩ :=
              rduEntries_key_result es dE r k v hwf hstep' hmem
            subst hr
            rcases hcase with ⟨n₀, hv, _⟩ | ⟨ves, hv, hrduv⟩
            · subst hv
              cases rest with
              | nil => simp [getPath] at hpath
              | cons q qs => simp [getPath] at hpath
            · subst hv
              have hget : getOrEmptyDict dE k = dv := by simp [getOrEmptyDict, hdk]
              rw [hget] at hrduv
              have hwves : wfJ (.dict ves) = true := wfJ_mem_val es k (.dict ves) hwf hmem
              have hres := ih j dv (.dict ves) w₀ w ues hwves hrduv hpath hj hd
              rw [List.cons_append]
              simp only [getPath, hlk]
              exact hres

/-- The spec's base example `{"a": 1, "b": {"c": 2}}`. -/
def exampleBase : JVal :=
  .dict [("a", .scalar 1), ("b", .dict [("c", .scalar 2)])]

/-- The spec's override example `{"b": {"d": 3}}`. -/
def exampleOverride : JVal := .dict [("b", .dict [("d", .scalar 3)])]

/-- The spec's merged example `{"a": 1, "b": {"c": 2, "d": 3}}`. -/
def exampleMerged : JVal :=
  .dict [("a", .scalar 1), ("b", .dict [("c", .scalar 2), ("d", .scalar 3)])]

/-- C8: for any successful merge `recursive_dictionary_update(d, u) = r`
    (with `u` a well-formed Python value, its dicts having unique keys):
    merging `r` with the same override `u` again yields `r` (idempotence
    in the override); an override whose value at a path is a scalar
    forces that scalar at the same path of the result; an override whose
    value at a path is a nested mapping preserves the base's sibling keys
    not present in the override; and the spec's concrete example merges
    to `{"a": 1, "b": {"c": 2, "d": 3}}`. -/
theorem c8_recursive_dictionary_update (d u r : JVal) (hwf : wfJ u = true)
    (hstep : rdu d u = .ok r) :
    rdu r u = .ok r ∧
    (∀ p n, getPath u p = some (.scalar n) → getPath r p = some (.scalar n)) ∧
    (∀ p j ues w, getPath u p = some (.dict ues) → assocLookup ues j = none →
      getPath d (p ++ [j]) = some w → getPath r (p ++ [j]) = some w) ∧
    rdu exampleBase exampleOverride = .ok exampleMerged := by
  refine ⟨rdu_idem d u r hwf hstep, ?_, ?_, ?_⟩
  · intro p n hpath
    exact rdu_getPath_scalar p d u r n hwf hstep hpath
  · intro p j ues w hpath hj hd
    exact rdu_getPath_sibling p j d u r w ues hwf hstep hpath hj hd
  · simp [exampleBase, exampleOverride, exampleMerged, rdu, rduEntries, getOrEmptyDict,
      assocLookup, setKey]

/-- Witness for C8 at the spec's example: re-merging the merged result
    with the override leaves it fixed; the override's scalar at path
    b.d appears in the result; the base's sibling b.c is preserved. -/
theorem c8_recursive_dictionary_update_witness :
    rdu exampleMerged exampleOverride = .ok exampleMerged ∧
    getPath exampleMerged ["b", "d"] = some (.scalar 3) ∧
    getPath exampleMerged ["b", "c"] = some (.scalar 2) := by
  have hwf : wfJ exampleOverride = true := by
    simp [exampleOverride, wfJ, assocLookup]
  have hstep : rdu exampleBase exampleOverride = .ok exampleMerged := by
    simp [exampleBase, exampleOverride, exampleMerged, rdu, rduEntries, getOrEmptyDict,
      assocLookup, setKey]
  have h := c8_recursive_dictionary_update exampleBase exampleOverride exampleMerged hwf hstep
  refine ⟨h.1, ?_, ?_⟩
  · exact h.2.1 ["b", "d"] 3 rfl
  · exact h.2.2.1 ["b"] "c" [("d", .scalar 3)] (.scalar 2) rfl rfl rfl

/- ------------------------------------------------------------------ -/
/- plugin_manager.PluginManager.resolve_dependencies                  -/
/- ------------------------------------------------------------------ -/

/-- One round's `ready` list:
    `[x for x, d in dependency_hash.iteritems() if len(d) == 0]`. -/
def readyOf (hash : List (String × List String)) : List String :=
  (hash.filter (fun p => p.2.isEmpty)).map Prod.fst

/-- One round's surviving dependency map: the entries whose dependency
    set is still non-empty (`del dependency_hash[name]` removed the
    ready ones), each updated by
    `dependency_hash[name].difference(plugin_set)` where `plugin_set`
    is the union of already-loaded plugin names (`self.plugins`) and the
    names waiting to load so far. -/
def remainingOf (already loaded : List String) (hash : List (String × List String)) :
    List (String × List String) :=
  (hash.filter (fun p => !p.2.isEmpty)).map
    (fun p => (p.1, p.2.filter (fun dep => !(already ++ loaded ++ readyOf hash).contains dep)))

theorem length_filter_lt {α : Type} (p : α → Bool) (l : List α) (x : α) (hx : x ∈ l)
    (hpx : p x = false) : (l.filter p).length < l.length := by
  induction l with
  | nil => cases hx
  | cons a t ih =>
    rcases List.mem_cons.mp hx with rfl | hxt
    · rw [List.filter_cons, if_neg (by simp [hpx])]
      exact Nat.lt_succ_of_le (List.length_filter_le _ _)
    · rw [List.filter_cons]
      by_cases hpa : p a = true
      · rw [if_pos hpa]
        simpa using Nat.succ_lt_succ (ih hxt)
      · rw [if_neg hpa]
        exact Nat.lt_succ_of_lt (ih hxt)

/-- The `while len(dependency_hash) > 0:` loop of
    `PluginManager.resolve_dependencies`, carrying the names loaded
    before this call (`self.plugins`, the `already` argument) and the
    load order accumulated so far.  When a round finds no plugin with an
    empty dependency set, the UnresolvedOrCircularDependencyError is
    raised, caught and logged as critical — modelled by the `false`
    flag — leaving the load order accumulated so far. -/
def resolveLoop (already loaded : List String) (hash : List (String × List String)) :
    List String × Bool :=
  if hash.isEmpty then (loaded, true)
  else if h : (readyOf hash).isEmpty then (loaded, false)
  else resolveLoop already (loaded ++ readyOf hash) (remainingOf already loaded hash)
termination_by hash.length
decreasing_by
  have hne : readyOf hash ≠ [] := by simpa [List.isEmpty_iff] using h
  obtain ⟨n, hn⟩ := List.exists_mem_of_ne_nil _ hne
  obtain ⟨q, hq, hq1⟩ := List.mem_map.mp hn
  obtain ⟨hqm, hqe⟩ := List.mem_filter.mp hq
  have hlt := length_filter_lt (fun p => !p.2.isEmpty) hash q hqm (by simp [hqe])
  simpa [remainingOf] using hlt

/-- `PluginManager.resolve_dependencies(dependency_hash)`: resets the
    waiting list and load order, then runs the round loop; returns the
    final `self.load_order` and whether resolution completed without the
    unresolved-or-circular failure. -/
def resolve_dependencies (already : List String) (hash : List (String × List String)) :
    List String × Bool :=
  resolveLoop already [] hash

theorem mem_readyOf {hash : List (String × List String)} {n : String} :
    n ∈ readyOf hash ↔ ∃ deps, (n, deps) ∈ hash ∧ deps.isEmpty = true := by
  constructor
  · intro h
    obtain ⟨p, hp, hp1⟩ := List.mem_map.mp h
    obtain ⟨hpm, hpe⟩ := List.mem_filter.mp hp
    subst hp1
    exact ⟨p.2, hpm, hpe⟩
  · rintro ⟨deps, hmem, hempty⟩
    exact List.mem_map.mpr ⟨(n, deps), List.mem_filter.mpr ⟨hmem, hempty⟩, rfl⟩

theorem remainingOf_map_fst (already loaded : List String)
    (hash : List (String × List String)) :
    (remainingOf already loaded hash).map Prod.fst =
      (hash.filter (fun p => !p.2.isEmpty)).map Prod.fst := by
  simp [remainingOf, List.map_map, Function.comp]

theorem nodup_entry_unique (hash : List (String × List String))
    (h : (hash.map Prod.fst).Nodup) (n : String) (deps deps' : List String)
    (h1 : (n, deps) ∈ hash) (h2 : (n, deps') ∈ hash) : deps = deps' := by
  induction hash with
  | nil => cases h1
  | cons e t ih =>
    rw [List.map_cons, List.nodup_cons] at h
    rcases List.mem_cons.mp h1 with he1 | ht1 <;> rcases List.mem_cons.mp h2 with he2 | ht2
    · have := he1.trans he2.symm
      injection this
    · exfalso
      apply h.1
      rw [← he1]
      exact List.mem_map.mpr ⟨(n, deps'), ht2, rfl⟩
    · exfalso
      apply h.1
      rw [← he2]
      exact List.mem_map.mpr ⟨(n, deps), ht1, rfl⟩
    · exact ih h.2 ht1 ht2

theorem resolveLoop_stuck (hash : List (String × List String)) (loaded C : List String)
    (hC : C ≠ []) (hnd : (hash.map Prod.fst).Nodup)
    (hcyc : ∀ n ∈ C, ∃ deps, (n, deps) ∈ hash ∧ ∃ d ∈ deps, d ∈ C)
    (hload : ∀ n ∈ C, n ∉ loaded) :
    (resolveLoop [] loaded hash).2 = false ∧
      ∀ n ∈ C, n ∉ (resolveLoop [] loaded hash).1 := by
  obtain ⟨n₀, hn₀⟩ := List.exists_mem_of_ne_nil C hC
  obtain ⟨deps₀, hmem₀, _⟩ := hcyc n₀ hn₀
  have hne : hash.isEmpty = false := by
    cases hash with
    | nil => cases hmem₀
    | cons e t => rfl
  have hreadyC : ∀ n ∈ C, n ∉ readyOf hash := by
    intro n hn hmem
    obtain ⟨deps', hmem', hempty⟩ := mem_readyOf.mp hmem
    obtain ⟨deps, hmemd, d, hd, _⟩ := hcyc n hn
    have hEq := nodup_entry_unique hash hnd n deps deps' hmemd hmem'
    rw [List.isEmpty_iff] at hempty
    rw [hEq, hempty] at hd
    cases hd
  rw [resolveLoop, if_neg (by simp [hne])]
  by_cases hready : (readyOf hash).isEmpty
  · rw [dif_pos hready]
    exact ⟨rfl, fun n hn => hload n hn⟩
  · rw [dif_neg hready]
    refine resolveLoop_stuck (remainingOf [] loaded hash) (loaded ++ readyOf hash) C hC
      ?_ ?_ ?_
    · rw [remainingOf_map_fst]
      exact List.Nodup.sublist (List.Sublist.map Prod.fst (List.filter_sublist hash)) hnd
    · intro n hn
      obtain ⟨deps, hmemd, d, hd, hdC⟩ := hcyc n hn
      have hdepsne : deps.isEmpty = false := by
        cases deps with
        | nil => cases hd
        | cons a t => rfl
      refine ⟨deps.filter
        (fun dep => !(([] : List String) ++ loaded ++ readyOf hash).contains dep),
        ?_, d, ?_, hdC⟩
      · exact List.mem_map.mpr ⟨(n, deps), List.mem_filter.mpr ⟨hmemd, by simp [hdepsne]⟩, rfl⟩
      · refine List.mem_filter.mpr ⟨hd, ?_⟩
        have h1 : d ∉ loaded := hload d hdC
        have h2 : d ∉ readyOf hash := hreadyC d hdC
        simp [h1, h2]
    · intro n hn hcon
      rcases List.mem_append.mp hcon with hmem | hmem
      · exact hload n hn hmem
      · exact hreadyC n hn hmem
termination_by hash.length
decreasing_by
  have hne2 : readyOf hash ≠ [] := by simpa [List.isEmpty_iff] using hready
  obtain ⟨n, hn⟩ := List.exists_mem_of_ne_nil _ hne2
  obtain ⟨q, hq, hq1⟩ := List.mem_map.mp hn
  obtain ⟨hqm, hqe⟩ := List.mem_filter.mp hq
  have hlt := length_filter_lt (fun p => !p.2.isEmpty) hash q hqm (by simp [hqe])
  simpa [remainingOf] using hlt

/-- Position of the first occurrence of a name in a load order. -/
def idxOf (a : String) : List String → Nat
  | [] => 0
  | b :: t => if b = a then 0 else idxOf a t + 1

theorem idxOf_append_left (a : String) (l₁ l₂ : List String) (h : a ∈ l₁) :
    idxOf a (l₁ ++ l₂) = idxOf a l₁ := by
  induction l₁ with
  | nil => cases h
  | cons b t ih =>
    by_cases hb : b = a
    · simp [idxOf, hb]
    · rcases List.mem_cons.mp h with rfl | ht
      · exact absurd rfl hb
      · simp [idxOf, hb, ih ht]

theorem idxOf_append_right (a : String) (l₁ l₂ : List String) (h : a ∉ l₁) :
    idxOf a (l₁ ++ l₂) = l₁.length + idxOf a l₂ := by
  induction l₁ with
  | nil => simp [idxOf]
  | cons b t ih =>
    have hb : ¬ (b = a) := by
      intro hh
      exact h (by rw [hh]; exact List.mem_cons_self a t)
    have ht : a ∉ t := fun hh => h (List.mem_cons_of_mem b hh)
    simp only [List.cons_append, idxOf, if_neg hb, List.append_eq, ih ht, List.length_cons]
    omega

theorem idxOf_lt_length (a : String) (l : List String) (h : a ∈ l) :
    idxOf a l < l.length := by
  induction l with
  | nil => cases h
  | cons b t ih =>
    by_cases hb : b = a
    · simp [idxOf, hb]
    · rcases List.mem_cons.mp h with rfl | ht
      · exact absurd rfl hb
      · simp only [idxOf, if_neg hb, List.length_cons]
        exact Nat.succ_lt_succ (ih ht)

theorem exists_min_rank (hash : List (String × List String)) (rank : String → Nat)
    (h : hash ≠ []) : ∃ nd ∈ hash, ∀ nd' ∈ hash, rank nd.1 ≤ rank nd'.1 := by
  induction hash with
  | nil => exact absurd rfl h
  | cons e t ih =>
    cases t with
    | nil =>
      refine ⟨e, List.mem_cons_self e [], ?_⟩
      intro nd' h'
      rcases List.mem_cons.mp h' with rfl | h''
      · exact le_refl _
      · cases h''
    | cons e₂ t₂ =>
      obtain ⟨m, hm, hmin⟩ := ih (by simp)
      by_cases hle : rank e.1 ≤ rank m.1
      · refine ⟨e, List.mem_cons_self _ _, ?_⟩
        intro nd' h'
        rcases List.mem_cons.mp h' with rfl | h''
        · exact le_refl _
        · exact le_trans hle (hmin nd' h'')
      · refine ⟨m, List.mem_cons_of_mem _ hm, ?_⟩
        intro nd' h'
        rcases List.mem_cons.mp h' with rfl | h''
        · omega
        · exact hmin nd' h''

theorem resolveLoop_acyclic (hash : List (String × List String)) (loaded : List String)
    (rank : String → Nat)
    (hnd : (hash.map Prod.fst).Nodup)
    (hrank : ∀ nd ∈ hash, ∀ dep ∈ nd.2, rank dep < rank nd.1)
    (hclosed : ∀ nd ∈ hash, ∀ dep ∈ nd.2, dep ∈ hash.map Prod.fst)
    (hdisj : ∀ nd ∈ hash, nd.1 ∉ loaded) :
    (resolveLoop [] loaded hash).2 = true ∧
    (∃ suffix, (resolveLoop [] loaded hash).1 = loaded ++ suffix) ∧
    (∀ nd ∈ hash, nd.1 ∈ (resolveLoop [] loaded hash).1 ∧
      ∀ dep ∈ nd.2, idxOf dep (resolveLoop [] loaded hash).1 <
        idxOf nd.1 (resolveLoop [] loaded hash).1) := by
  by_cases hempty : hash.isEmpty
  · have h0 : hash = [] := by simpa [List.isEmpty_iff] using hempty
    subst h0
    refine ⟨by simp [resolveLoop], ⟨[], by simp [resolveLoop]⟩, ?_⟩
    intro nd hndm
    cases hndm
  · have hready : (readyOf hash).isEmpty = false := by
      have hhne : hash ≠ [] := by simpa [List.isEmpty_iff] using hempty
      obtain ⟨nd₀, hnd₀, hmin⟩ := exists_min_rank hash rank hhne
      have hdeps : nd₀.2 = [] := by
        cases hdeps0 : nd₀.2 with
        | nil => rfl
        | cons d ds =>
          exfalso
          have hd : d ∈ nd₀.2 := by rw [hdeps0]; exact List.mem_cons_self _ _
          have h1 := hrank nd₀ hnd₀ d hd
          have h2 := hclosed nd₀ hnd₀ d hd
          obtain ⟨q, hq, hq1⟩ := List.mem_map.mp h2
          have h3 := hmin q hq
          rw [hq1] at h3
          omega
      have hmem : nd₀.1 ∈ readyOf hash :=
        mem_readyOf.mpr ⟨nd₀.2, hnd₀, by rw [hdeps]; rfl⟩
      cases hre : (readyOf hash).isEmpty with
      | false => rfl
      | true =>
        exfalso
        rw [List.isEmpty_iff] at hre
        rw [hre] at hmem
        cases hmem
    rw [resolveLoop, if_neg (by simp [hempty]), dif_neg (by simp [hready])]
    have hnd' : ((remainingOf [] loaded hash).map Prod.fst).Nodup := by
      rw [remainingOf_map_fst]
      exact List.Nodup.sublist (List.Sublist.map Prod.fst (List.filter_sublist hash)) hnd
    have hmem_rem : ∀ nd' ∈ remainingOf [] loaded hash,
        ∃ p ∈ hash, p.2.isEmpty = false ∧
          nd' = (p.1, p.2.filter
            (fun dep => !(([] : List String) ++ loaded ++ readyOf hash).contains dep)) := by
      intro nd' h'
      obtain ⟨p, hp, hpe⟩ := List.mem_map.mp h'
      obtain ⟨hpm, hpne⟩ := List.mem_filter.mp hp
      exact ⟨p, hpm, by simpa using hpne, hpe.symm⟩
    have hrank' : ∀ nd' ∈ remainingOf [] loaded hash, ∀ dep ∈ nd'.2,
        rank dep < rank nd'.1 := by
      intro nd' h' dep hdep
      obtain ⟨p, hpm, hpne, rfl⟩ := hmem_rem nd' h'
      exact hrank p hpm dep (List.mem_filter.mp hdep).1
    have hkey_stays : ∀ dep, dep ∈ hash.map Prod.fst → dep ∉ loaded ++ readyOf hash →
        dep ∈ (remainingOf [] loaded hash).map Prod.fst := by
      intro dep hdep hnotin
      obtain ⟨q, hq, hq1⟩ := List.mem_map.mp hdep
      have hqne : q.2.isEmpty = false := by
        cases hq2 : q.2.isEmpty with
        | false => rfl
        | true =>
          exfalso
          apply hnotin
          refine List.mem_append.mpr (Or.inr ?_)
          rw [← hq1]
          exact mem_readyOf.mpr ⟨q.2, hq, hq2⟩
      rw [remainingOf_map_fst]
      exact List.mem_map.mpr ⟨q, List.mem_filter.mpr ⟨hq, by simp [hqne]⟩, hq1⟩
    have hclosed' : ∀ nd' ∈ remainingOf [] loaded hash, ∀ dep ∈ nd'.2,
        dep ∈ (remainingOf [] loaded hash).map Prod.fst := by
      intro nd' h' dep hdep
      obtain ⟨p, hpm, hpne, rfl⟩ := hmem_rem nd' h'
      obtain ⟨hdep2, hdepc⟩ := List.mem_filter.mp hdep
      have hnotin : dep ∉ loaded ++ readyOf hash := by
        intro hcon
        simp only [Bool.not_eq_true'] at hdepc
        have hnm : dep ∉ ([] : List String) ++ loaded ++ readyOf hash := by
          simpa using hdepc
        exact hnm (by simpa using hcon)
      exact hkey_stays dep (hclosed p hpm dep hdep2) hnotin
    have hdisj' : ∀ nd' ∈ remainingOf [] loaded hash, nd'.1 ∉ loaded ++ readyOf hash := by
      intro nd' h' hcon
      obtain ⟨p, hpm, hpne, rfl⟩ := hmem_rem nd' h'
      rcases List.mem_append.mp hcon with hmem | hmem
      · exact hdisj p hpm hmem
      · obtain ⟨deps', hmem', hempty'⟩ := mem_readyOf.mp hmem
        have heq := nodup_entry_unique hash hnd p.1 p.2 deps' hpm hmem'
        rw [← heq] at hempty'
        rw [hpne] at hempty'
        cases hempty'
    obtain ⟨hflag, ⟨suffix', hsuf⟩, hmain⟩ := resolveLoop_acyclic
      (remainingOf [] loaded hash) (loaded ++ readyOf hash) rank hnd' hrank' hclosed' hdisj'
    refine ⟨hflag, ⟨readyOf hash ++ suffix', by rw [hsuf, List.append_assoc]⟩, ?_⟩
    intro nd hndm
    by_cases hdeps : nd.2.isEmpty = true
    · have hmemready : nd.1 ∈ readyOf hash := mem_readyOf.mpr ⟨nd.2, hndm, hdeps⟩
      constructor
      · rw [hsuf]
        exact List.mem_append.mpr (Or.inl (List.mem_append.mpr (Or.inr hmemready)))
      · intro dep hdep
        rw [List.isEmpty_iff] at hdeps
        rw [hdeps] at hdep
        cases hdep
    · have hdne : nd.2.isEmpty = false := by
        cases h2 : nd.2.isEmpty with
        | false => rfl
        | true => exact absurd h2 hdeps
      have hmem' : (nd.1, nd.2.filter
          (fun dep => !(([] : List String) ++ loaded ++ readyOf hash).contains dep)) ∈
          remainingOf [] loaded hash :=
        List.mem_map.mpr ⟨nd, List.mem_filter.mpr ⟨hndm, by simp [hdne]⟩, rfl⟩
      have hrec := hmain _ hmem'
      refine ⟨hrec.1, ?_⟩
      intro dep hdep
      by_cases hdmem : dep ∈ loaded ++ readyOf hash
      · rw [hsuf]
        rw [idxOf_append_left dep _ suffix' hdmem]
        have hnd1 : nd.1 ∉ loaded ++ readyOf hash :=
          hdisj' (nd.1, nd.2.filter
            (fun dep => !(([] : List String) ++ loaded ++ readyOf hash).contains dep)) hmem'
        rw [idxOf_append_right nd.1 _ suffix' hnd1]
        have hlt := idxOf_lt_length dep _ hdmem
        omega
      · have hdep' : dep ∈ nd.2.filter
            (fun dep => !(([] : List String) ++ loaded ++ readyOf hash).contains dep) :=
          List.mem_filter.mpr ⟨hdep, by simpa using hdmem⟩
        exact hrec.2 dep hdep'
termination_by hash.length
decreasing_by
  have hne2 : readyOf hash ≠ [] := by simpa [List.isEmpty_iff] using hready
  obtain ⟨n, hn⟩ := List.exists_mem_of_ne_nil _ hne2
  obtain ⟨q, hq, hq1⟩ := List.mem_map.mp hn
  obtain ⟨hqm, hqe⟩ := List.mem_filter.mp hq
  have hlt := length_filter_lt (fun p => !p.2.isEmpty) hash q hqm (by simp [hqe])
  simpa [remainingOf] using hlt

/-- Acyclicity of a dependency map: a topological ranking exists (for a
    finite graph this is equivalent to having no directed cycle). -/
def Acyclic (hash : List (String × List String)) : Prop :=
  ∃ rank : String → Nat, ∀ nd ∈ hash, ∀ dep ∈ nd.2, rank dep < rank nd.1

/-- Every declared dependency names a plugin present in the map. -/
def ClosedDeps (hash : List (String × List String)) : Prop :=
  ∀ nd ∈ hash, ∀ dep ∈ nd.2, dep ∈ hash.map Prod.fst

/-- A non-empty set of plugin names each of which declares (in the map)
    a dependency on another member of the set — e.g. the two members of
    a cycle A → B → A, or all vertices of any directed cycle. -/
def HasCycleSet (hash : List (String × List String)) (C : List String) : Prop :=
  C ≠ [] ∧ ∀ n ∈ C, ∃ deps, (n, deps) ∈ hash ∧ ∃ d ∈ deps, d ∈ C

/-- C4: for an acyclic dependency map whose dependencies all name
    plugins in the map, `resolve_dependencies` completes without the
    unresolved-or-circular failure and produces a load order in which
    every plugin appears, strictly after every one of its declared
    dependencies; for a map containing a cycle, the
    unresolved-or-circular-dependency error is reported (logged, not
    raised past the loader) and no member of the cycle appears in the
    load order. -/
theorem c4_resolve_dependencies :
    (∀ hash : List (String × List String), (hash.map Prod.fst).Nodup →
      Acyclic hash → ClosedDeps hash →
      (resolve_dependencies [] hash).2 = true ∧
      ∀ nd ∈ hash, nd.1 ∈ (resolve_dependencies [] hash).1 ∧
        ∀ dep ∈ nd.2,
          idxOf dep (resolve_dependencies [] hash).1 <
            idxOf nd.1 (resolve_dependencies [] hash).1) ∧
    (∀ (hash : List (String × List String)) (C : List String),
      (hash.map Prod.fst).Nodup → HasCycleSet hash C →
      (resolve_dependencies [] hash).2 = false ∧
      ∀ n ∈ C, n ∉ (resolve_dependencies [] hash).1) := by
  constructor
  · rintro hash hnd ⟨rank, hrank⟩ hclosed
    obtain ⟨hflag, _, hmain⟩ := resolveLoop_acyclic hash [] rank hnd hrank hclosed
      (fun nd _ => List.not_mem_nil _)
    exact ⟨hflag, hmain⟩
  · rintro hash C hnd ⟨hC, hcyc⟩
    exact resolveLoop_stuck hash [] C hC hnd hcyc (fun n _ => List.not_mem_nil _)

/-- Witness for C4: the acyclic map `{alpha: {}, beta: {alpha}}` loads
    with beta strictly after alpha; the cyclic map `{A: {B}, B: {A}}`
    fails and loads neither A nor B. -/
theorem c4_resolve_dependencies_witness :
    ((resolve_dependencies [] [("alpha", []), ("beta", ["alpha"])]).2 = true ∧
      ∀ nd ∈ [("alpha", ([] : List String)), ("beta", ["alpha"])],
        nd.1 ∈ (resolve_dependencies [] [("alpha", []), ("beta", ["alpha"])]).1 ∧
        ∀ dep ∈ nd.2,
          idxOf dep (resolve_dependencies [] [("alpha", []), ("beta", ["alpha"])]).1 <
            idxOf nd.1 (resolve_dependencies [] [("alpha", []), ("beta", ["alpha"])]).1) ∧
    ((resolve_dependencies [] [("A", ["B"]), ("B", ["A"])]).2 = false ∧
      ∀ n ∈ ["A", "B"], n ∉ (resolve_dependencies [] [("A", ["B"]), ("B", ["A"])]).1) := by
  constructor
  · refine c4_resolve_dependencies.1 [("alpha", []), ("beta", ["alpha"])] (by decide) ?_ ?_
    · exact ⟨fun s => if s = "beta" then 1 else 0, by decide⟩
    · exact (by decide :
        ∀ nd ∈ [("alpha", ([] : List String)), ("beta", ["alpha"])], ∀ dep ∈ nd.2,
          dep ∈ [("alpha", ([] : List String)), ("beta", ["alpha"])].map Prod.fst)
  · refine c4_resolve_dependencies.2 [("A", ["B"]), ("B", ["A"])] ["A", "B"] (by decide) ?_
    refine ⟨by decide, ?_⟩
    intro n hn
    rcases List.mem_cons.mp hn with rfl | hn2
    · exact ⟨["B"], by decide, "B", by decide, by decide⟩
    · rcases List.mem_cons.mp hn2 with rfl | hn3
      · exact ⟨["A"], by decide, "A", by decide, by decide⟩
      · cases hn3

end StarryPy
